import Mathlib

/-!
Verification of the NetKet distributed stochastic-reconfiguration VMC engine.

Shallow embedding of the statistics engine (Sources/Stats/mc_stats.cc), the
stochastic-reconfiguration update of the exact variational driver
(VariationalExact::UpdateParameters), the VMC driver initialization
(VariationalMonteCarlo::Init / Advance), and the exchange-move samplers
(MetropolisGlobal::Sweep, ExchangeKernel).

Doubles are modelled as exact real numbers; an IEEE quiet NaN is modelled as
the value none of an Option type.  Theorems about formulas that divide by a
quantity carry the hypothesis that the divisor is nonzero, since real division
by zero (which Lean defines as 0) does not model IEEE semantics.
-/

namespace NetKet

/-! ### Welford accumulator, from detail::MeanAndVarianceAccumulator

The C++ accumulator runs component-wise over a span of doubles with one shared
sample counter; each component follows the scalar recurrence embedded here.
-/

/-- State of one component of the one-pass mean/variance accumulator:
running mean mu, running sum of squared deviations M2, sample count n. -/
structure WelfordState where
  mu : ℝ
  M2 : ℝ
  n : ℕ

/-- One call of the accumulation kernel: delta = x - mu; mu += delta/n;
M2 += delta * (x - mu), after the count was incremented. -/
noncomputable def welfordStep (s : WelfordState) (x : ℝ) : WelfordState :=
  let n := s.n + 1
  let delta := x - s.mu
  let mu := s.mu + delta / (n : ℝ)
  { mu := mu, M2 := s.M2 + delta * (x - mu), n := n }

/-- Accumulating a whole list, starting from the zero-filled initial state of
the constructor. -/
noncomputable def welfordRun (xs : List ℝ) : WelfordState :=
  xs.foldl welfordStep { mu := 0, M2 := 0, n := 0 }

/-- Destructor of the accumulator: with no samples both outputs are NaN, with
one sample the variance output is NaN, otherwise M2 is scaled by 1/n
(population variance, divisor n).  NaN is modelled as none. -/
noncomputable def welfordFinalize (s : WelfordState) : Option ℝ × Option ℝ :=
  if s.n = 0 then (none, none)
  else if s.n = 1 then (some s.mu, none)
  else (some s.mu, some (s.M2 * (1 / (s.n : ℝ))))

/-! ### StatisticsLocal and Statistics, from mc_stats.cc -/

/-- Error raised by NETKET_CHECK (InvalidInputError). -/
inductive StatsError where
  | invalidInput
  deriving Repr, DecidableEq

/-- Chain j of a flat per-process sample vector with c interleaved chains:
element i of chain j sits at flat index i * c + j. -/
def chainOf (values : List ℂ) (c j : ℕ) : List ℂ :=
  (List.range (values.length / c)).map (fun i => values.getD (i * c + j) 0)

/-- Per-chain mean and variance produced by StatisticsLocal for chain j: the
accumulator runs over the real and imaginary components (the vector of complex
means is viewed as 2c doubles), and the variance of a chain is the sum of the
variances of its real and imaginary parts. -/
noncomputable def chainMeanVar (values : List ℂ) (c j : ℕ) : Option ℂ × Option ℝ :=
  let ch := chainOf values c j
  let sre := welfordFinalize (welfordRun (ch.map Complex.re))
  let sim := welfordFinalize (welfordRun (ch.map Complex.im))
  (match sre.1, sim.1 with
    | some a, some b => some ⟨a, b⟩
    | _, _ => none,
   match sre.2, sim.2 with
    | some a, some b => some (a + b)
    | _, _ => none)

/-- In-chain means and variances of all c chains of one process. -/
noncomputable def localChainStats (vs : List ℂ) (c : ℕ) : List (Option ℂ × Option ℝ) :=
  (List.range c).map (fun j => chainMeanVar vs c j)

/-- StatisticsLocal: checks number_chains > 0 and that the number of values is
an exact multiple of the chain count, then computes in-chain means and
variances. -/
noncomputable def StatisticsLocal (values : List ℂ) (c : ℕ) :
    Except StatsError (List (Option ℂ × Option ℝ)) :=
  if c = 0 then .error .invalidInput
  else if values.length % c ≠ 0 then .error .invalidInput
  else .ok (localChainStats values c)

/-- Result record of Statistics.  Fields that the C++ sets to quiet NaN are
modelled as none. -/
structure Stats where
  mean : Option ℂ
  error_of_mean : Option ℝ
  variance : Option ℝ
  correlation : Option ℝ
  R : Option ℝ

/-- Addition of possibly-NaN values: NaN (none) is absorbing, mirroring IEEE
addition. -/
def optAdd {α : Type} [Add α] : Option α → Option α → Option α
  | some x, some y => some (x + y)
  | _, _ => none

/-- Sum of a list of possibly-NaN values. -/
def optSum {α : Type} [AddMonoid α] : List (Option α) → Option α
  | [] => some 0
  | a :: rest => optAdd a (optSum rest)

/-- Tail of Statistics: from the reduced mean and the pair (B/m, W/m) of
possibly-NaN global variance components, assemble the Stats record.  When
both components are defined: t = B/W, the autocorrelation estimate is
0.5·(t·n − 1) clamped at zero and then rounded (std::round, half away from
zero, which agrees with Lean's round on nonnegative arguments), the error of
the mean is sqrt(var.first/m) with var.first = B, the reported variance is
var.second = W, and R = sqrt((n−1)/n + B/W); otherwise all four diagnostics
are NaN. -/
noncomputable def statsFromMoments (mean : Option ℂ) (n m : ℕ)
    (varp : Option ℝ × Option ℝ) : Stats :=
  match varp with
  | (some vB, some vW) =>
    let t := vB / vW
    let corr := 0.5 * (t * (n : ℝ) - 1)
    let corrClamped := if corr < 0 then 0 else corr
    let Rhat := Real.sqrt (((n : ℝ) - 1) / (n : ℝ) + vB / vW)
    Stats.mk mean (some (Real.sqrt (vB / (m : ℝ)))) (some vW)
      (some ((round corrClamped : ℤ) : ℝ)) (some Rhat)
  | _ => Stats.mk mean none none none none

/-- Statistics, as computed on the process of rank p of an MPI world holding
one flat sample vector per process (valuess) with c chains per process.
MPI_Allreduce sums of per-process sums are modelled as nested optSum.
The process first checks its own input shape (values.size() >= chains in
Statistics, chains > 0 and divisibility in StatisticsLocal); m is the global
chain count (processes times c) and n the local per-chain sample count. -/
noncomputable def Statistics (valuess : List (List ℂ)) (c p : ℕ) :
    Except StatsError Stats :=
  let values := valuess.getD p []
  if values.length < c then .error .invalidInput
  else
    match StatisticsLocal values c with
    | .error e => .error e
    | .ok _ =>
      let n : ℕ := values.length / c
      let m : ℕ := valuess.length * c
      let meanSum : Option ℂ :=
        optSum (valuess.map (fun vs => optSum ((localChainStats vs c).map Prod.fst)))
      let mean : Option ℂ := meanSum.map (fun z => z / (m : ℂ))
      let globalB : Option ℝ :=
        mean.bind (fun mu =>
          optSum (valuess.map (fun vs =>
            optSum ((localChainStats vs c).map
              (fun s => s.1.map (fun z => Complex.normSq (z - mu)))))))
      let globalW : Option ℝ :=
        optSum (valuess.map (fun vs => optSum ((localChainStats vs c).map Prod.snd)))
      let varp : Option ℝ × Option ℝ :=
        if m = 1 then (none, none)
        else (globalB.map (fun x => x / (m : ℝ)), globalW.map (fun x => x / (m : ℝ)))
      .ok (statsFromMoments mean n m varp)

/-! ### Two-pass reference quantities, following the wording of the spec.
These are the quantities the claims state the code computes; the theorems
compare the Welford-based implementation above against them. -/

/-- Arithmetic mean of a list of complex samples. -/
noncomputable def listMean (l : List ℂ) : ℂ := l.sum / (l.length : ℂ)

/-- Two-pass population variance of a list of complex samples:
mean of squared magnitudes minus squared magnitude of the mean. -/
noncomputable def listVariance (l : List ℂ) : ℝ :=
  (l.map Complex.normSq).sum / (l.length : ℝ) - Complex.normSq (listMean l)

/-- The global list of chains: all processes' chains, in process order. -/
def chainsOf (valuess : List (List ℂ)) (c : ℕ) : List (List ℂ) :=
  (valuess.map (fun vs => (List.range c).map (fun j => chainOf vs c j))).flatten

/-- Global mean: average of the per-chain means over all m chains. -/
noncomputable def muSpec (valuess : List (List ℂ)) (c : ℕ) : ℂ :=
  ((chainsOf valuess c).map listMean).sum / ((valuess.length * c : ℕ) : ℂ)

/-- Between-chain variance B: mean squared deviation of the per-chain means
from the global mean (sum over chains divided by m). -/
noncomputable def Bspec (valuess : List (List ℂ)) (c : ℕ) : ℝ :=
  ((chainsOf valuess c).map
      (fun ch => Complex.normSq (listMean ch - muSpec valuess c))).sum /
    ((valuess.length * c : ℕ) : ℝ)

/-- Within-chain mean variance W: mean of the per-chain variances
(sum over chains divided by m). -/
noncomputable def Wspec (valuess : List (List ℂ)) (c : ℕ) : ℝ :=
  ((chainsOf valuess c).map listVariance).sum / ((valuess.length * c : ℕ) : ℝ)

/-! ### Stochastic-reconfiguration update, from VariationalExact::UpdateParameters -/

open Matrix

/-- Right-hand side b = Okᴴ · diag(psi2) · elocs (with Ok centered and elocs
the centered local energies, as prepared by Gradient()). -/
noncomputable def bVec {ns np : ℕ} (O : Matrix (Fin ns) (Fin np) ℂ)
    (psi2 : Fin ns → ℝ) (elocs : Fin ns → ℂ) : Fin np → ℂ :=
  (Oᴴ * Matrix.diagonal (fun k => ((psi2 k : ℝ) : ℂ))).mulVec elocs

/-- Explicitly built matrix of the direct path:
S = Okᴴ · diag(psi2) · Ok plus the diagonal shift. -/
noncomputable def Sdirect {ns np : ℕ} (O : Matrix (Fin ns) (Fin np) ℂ)
    (psi2 : Fin ns → ℝ) (shift : ℝ) : Matrix (Fin np) (Fin np) ℂ :=
  Oᴴ * Matrix.diagonal (fun k => ((psi2 k : ℝ) : ℂ)) * O + ((shift : ℝ) : ℂ) • 1

/-- Modelled from the spec: matrix_replacement.hpp is not among the sources;
§4.3 specifies the iterative strategy's matrix-free product as
S·x = Oᴴ·(O·x), scaled appropriately, with the diagonal shift applied as
regularization.  The operator therefore acts as scale·Oᴴ·O + shift·1; the
caller in UpdateParameters sets scale = 1/(nsamp·totalnodes) and
shift = sr_diag_shift_. -/
noncomputable def SiterMat {ns np : ℕ} (O : Matrix (Fin ns) (Fin np) ℂ)
    (scale shift : ℝ) : Matrix (Fin np) (Fin np) ℂ :=
  ((scale : ℝ) : ℂ) • (Oᴴ * O) + ((shift : ℝ) : ℂ) • 1

/-- Exact-arithmetic model of the linear solvers (LLT, FullPivHouseholderQR,
conjugate gradient with its tolerance): for an invertible system each returns
the solution of S·x = b. -/
noncomputable def solveLinear {np : ℕ} (S : Matrix (Fin np) (Fin np) ℂ)
    (b : Fin np → ℂ) : Fin np → ℂ :=
  S⁻¹.mulVec b

/-- Optional rescale postprocessing: nor = deltaP.dot(S·deltaP) (Eigen's dot
conjugates its first argument) and the update is divided by sqrt(nor.real()). -/
noncomputable def rescaleDelta {np : ℕ} (S : Matrix (Fin np) (Fin np) ℂ)
    (d : Fin np → ℂ) : Fin np → ℂ :=
  fun i => d i / ((Real.sqrt ((star d ⬝ᵥ S.mulVec d).re) : ℝ) : ℂ)

/-- SR branch of VariationalExact::UpdateParameters: build b, solve either the
direct system on Sdirect or the iterative system on the MatrixReplacement
operator (whose scale is set to 1/(nsamp·totalnodes) with nsamp = rows of the
sample matrix), then optionally rescale with the S of the same branch. -/
noncomputable def updateDeltaSR {ns np : ℕ} (useIterative rescaleShift : Bool)
    (O : Matrix (Fin ns) (Fin np) ℂ) (psi2 : Fin ns → ℝ) (elocs : Fin ns → ℂ)
    (shift : ℝ) (totalnodes : ℕ) : Fin np → ℂ :=
  let b := bVec O psi2 elocs
  if useIterative then
    let S := SiterMat O (1 / ((ns * totalnodes : ℕ) : ℝ)) shift
    let d := solveLinear S b
    if rescaleShift then rescaleDelta S d else d
  else
    let S := Sdirect O psi2 shift
    let d := solveLinear S b
    if rescaleShift then rescaleDelta S d else d

/-- The S operator of the branch taken by UpdateParameters: the
MatrixReplacement operator for the iterative path, the explicit matrix for the
direct path. -/
noncomputable def branchS {ns np : ℕ} (useIterative : Bool)
    (O : Matrix (Fin ns) (Fin np) ℂ) (psi2 : Fin ns → ℝ) (shift : ℝ)
    (totalnodes : ℕ) : Matrix (Fin np) (Fin np) ℂ :=
  if useIterative then SiterMat O (1 / ((ns * totalnodes : ℕ) : ℝ)) shift
  else Sdirect O psi2 shift

/-! ### VariationalMonteCarlo initialization and advance, from py_stats.cc -/

/-- Per-process sample quota: nsamples_node_ = int(ceil(nsamples/totalnodes)),
computed in C++ on doubles; integers below 2^53 are exact in double precision
and the correctly rounded quotient never crosses an integer, so the double
arithmetic is modelled by exact rational division. -/
def nsamplesNode (nsamples totalnodes : ℕ) : ℤ :=
  ⌈(nsamples : ℚ) / (totalnodes : ℚ)⌉

/-- Errors surfacing from the VMC driver: InvalidInputError thrown by
configuration checks, and the std::runtime_error thrown inside Advance. -/
inductive VmcError where
  | invalidInput
  | runtimeError
  deriving Repr, DecidableEq

/-- Configuration handed to VariationalMonteCarlo::Init.  srSolverValid
abstracts SR::SolverFromString(sr_lsq_solver).has_value(), whose
implementation lives outside these sources. -/
structure VmcConfig where
  nsamples : ℕ
  totalnodes : ℕ
  target : String
  method : String
  srSolverValid : Bool
  useCholesky : Option Bool
  srLsqSolver : String

/-- State established by a successful Init. -/
structure VmcState where
  nsamplesNodeVal : ℤ
  usesSr : Bool
  deriving Repr, DecidableEq

/-- VariationalMonteCarlo::Init.  The deprecated use_cholesky consistency
check and the unknown-SR-solver check throw InvalidInputError.  The final
target check merely constructs an InvalidInputError value without a throw
statement, so it never alters control flow: Init succeeds for any target
string.  The construction site is kept here as a discarded let binding. -/
def vmcInit (cfg : VmcConfig) : Except VmcError VmcState :=
  if cfg.useCholesky = some true ∧ cfg.srLsqSolver ≠ "LLT" then
    .error .invalidInput
  else if cfg.method ≠ "Gd" ∧ ¬cfg.srSolverValid then
    .error .invalidInput
  else
    let _discardedTargetCheck : Prop :=
      cfg.target ≠ "energy" ∧ cfg.target ≠ "variance"
    .ok { nsamplesNodeVal := nsamplesNode cfg.nsamples cfg.totalnodes,
          usesSr := cfg.method ≠ "Gd" }

/-- Target dispatch inside VariationalMonteCarlo::Advance.  The Bool records
that ComputeSamples has already run when the dispatch happens (sampling
precedes the check in every iteration). -/
def vmcAdvanceStep (target : String) : Bool × Except VmcError Unit :=
  (true,
   if target = "energy" then .ok ()
   else if target = "variance" then .ok ()
   else .error .runtimeError)

/-! ### Exchange moves, from ExchangeKernel and MetropolisGlobal::Sweep -/

/-- Modelled from the spec: the hilbert implementations of UpdateConf are
outside these sources; §6 specifies a local change list of changed indices and
new values, applied entrywise: the value at index tochange[k] becomes
newconf[k]. -/
def updateConf (v : List ℝ) (tochange : List ℕ) (newconf : List ℝ) : List ℝ :=
  (tochange.zip newconf).foldl (fun w p => w.set p.1 p.2) v

/-- std::swap of two entries of a configuration vector. -/
def listSwap (v : List ℝ) (i j : ℕ) : List ℝ :=
  (v.set i (v.getD j 0)).set j (v.getD i 0)

/-- One batch row of ExchangeKernel::operator(): pick cluster rcl and swap its
two sites. -/
def exchangeKernelRow (clusters : List (ℕ × ℕ)) (v : List ℝ) (rcl : ℕ) : List ℝ :=
  let p := clusters.getD rcl (0, 0)
  listSwap v p.1 p.2

/-- ExchangeKernel::operator(): vnew = v, then one cluster swap per batch row
(one cluster draw per row); the log-acceptance corrections are set to zero. -/
def exchangeKernel (clusters : List (ℕ × ℕ)) (vs : List (List ℝ))
    (draws : List ℕ) : List (List ℝ) × List ℝ :=
  (List.zipWith (exchangeKernelRow clusters) vs draws, vs.map (fun _ => 0))

/-- Random draws consumed by one iteration of the Sweep loop body.  Each
iteration draws afresh; the acceptance draw acc is a uniform [0,1) variate
drawn after the proposal is formed. -/
structure SweepDraws where
  branch : ℝ
  rcl : ℕ
  line : ℕ
  rowcol : ℝ
  acc : ℝ

/-- Mutable state of the MetropolisGlobal sampler: configuration, lookup
cache, and the acceptance/attempt counters for the two move types (the C++
counters are doubles holding integer counts). -/
structure SweepState (LT : Type) where
  v : List ℝ
  lt : LT
  accept : ℕ × ℕ
  moves : ℕ × ℕ

/-- Flat index of entry j of column c in the column-major L×L reshape of the
configuration: column c entry j is flat index c*L + j. -/
def colIdx (L c j : ℕ) : ℕ := c * L + j

/-- Flat index of entry j of row c in the column-major L×L reshape: row c
entry j is flat index j*L + c. -/
def rowIdx (L c j : ℕ) : ℕ := j * L + c

/-- Change lists accumulated by a block swap between line r and line rp: for
every j whose signed difference v[idx r j] - v[idx rp j] exceeds eps (the C++
compares the difference, not its absolute value), the two entries exchange
their values. -/
noncomputable def blockChanges (v : List ℝ) (eps : ℝ) (L r rp : ℕ) (idx : ℕ → ℕ → ℕ → ℕ) :
    List ℕ × List ℝ :=
  (List.range L).foldl
    (fun acc j =>
      if eps < v.getD (idx L r j) 0 - v.getD (idx L rp j) 0 then
        (acc.1 ++ [idx L r j, idx L rp j],
         acc.2 ++ [v.getD (idx L rp j) 0, v.getD (idx L r j) 0])
      else acc)
    ([], [])

/-- One iteration of the loop body of MetropolisGlobal::Sweep.  lvd is the
wavefunction's incremental oracle psi_.LogValDiff(v, tochange, newconf, lt)
and updLT its lookup update psi_.UpdateLookup; eps stands for
std::numeric_limits<double>::epsilon().  With probability 0.8 a pairwise
exchange from the cluster list is proposed, otherwise a whole line swap of the
L×L reshape (column or row with probability 1/2 each); a proposal is accepted
when std::norm(std::exp(LogValDiff)) exceeds the fresh acceptance draw. -/
noncomputable def sweepIter {LT : Type}
    (lvd : List ℝ → List ℕ → List ℝ → LT → ℂ)
    (updLT : List ℝ → List ℕ → List ℝ → LT → LT)
    (clusters : List (ℕ × ℕ)) (L : ℕ) (eps : ℝ)
    (s : SweepState LT) (d : SweepDraws) : SweepState LT :=
  if 0.2 < d.branch then
    let p := clusters.getD d.rcl (0, 0)
    let si := p.1
    let sj := p.2
    if eps < |s.v.getD si 0 - s.v.getD sj 0| then
      let tochange := [si, sj]
      let newconf := [s.v.getD sj 0, s.v.getD si 0]
      let pAccept := Complex.normSq (Complex.exp (lvd s.v tochange newconf s.lt))
      if d.acc < pAccept then
        { v := updateConf s.v tochange newconf,
          lt := updLT s.v tochange newconf s.lt,
          accept := (s.accept.1 + 1, s.accept.2),
          moves := (s.moves.1 + 1, s.moves.2) }
      else { s with moves := (s.moves.1 + 1, s.moves.2) }
    else { s with moves := (s.moves.1 + 1, s.moves.2) }
  else
    let r := d.line % L
    let ch :=
      if 0.5 < d.rowcol then blockChanges s.v eps L r ((r + 1) % L) colIdx
      else blockChanges s.v eps L r ((r + 1) % L) rowIdx
    if ch.1 ≠ [] then
      let pAccept := Complex.normSq (Complex.exp (lvd s.v ch.1 ch.2 s.lt))
      if d.acc < pAccept then
        { v := updateConf s.v ch.1 ch.2,
          lt := updLT s.v ch.1 ch.2 s.lt,
          accept := (s.accept.1, s.accept.2 + 1),
          moves := (s.moves.1, s.moves.2 + 1) }
      else { s with moves := (s.moves.1, s.moves.2 + 1) }
    else { s with moves := (s.moves.1, s.moves.2 + 1) }

/-- MetropolisGlobal::Sweep: the loop body runs nv times; the draws of all
iterations are supplied as a list. -/
noncomputable def metropolisGlobalSweep {LT : Type}
    (lvd : List ℝ → List ℕ → List ℝ → LT → ℂ)
    (updLT : List ℝ → List ℕ → List ℝ → LT → LT)
    (clusters : List (ℕ × ℕ)) (L : ℕ) (eps : ℝ)
    (s : SweepState LT) (ds : List SweepDraws) : SweepState LT :=
  ds.foldl (sweepIter lvd updLT clusters L eps) s

/-- Flattened list of changed indices of a list of site pairs. -/
def swapIdxList (ps : List (ℕ × ℕ)) : List ℕ :=
  (ps.map (fun p => [p.1, p.2])).flatten

/-- Flattened list of exchanged values of a list of site pairs, read from the
original configuration: pair (a, b) contributes [v[b], v[a]]. -/
def swapValList (v : List ℝ) (ps : List (ℕ × ℕ)) : List ℝ :=
  (ps.map (fun p => [v.getD p.2 0, v.getD p.1 0])).flatten

/-! ## Theorems -/

/-! ### Welford accumulator (claim C4) -/

theorem welfordRun_append_singleton (xs : List ℝ) (x : ℝ) :
    welfordRun (xs ++ [x]) = welfordStep (welfordRun xs) x := by
  simp [welfordRun, List.foldl_append]

theorem welfordRun_closed_form (xs : List ℝ) (h : xs ≠ []) :
    welfordRun xs =
      { mu := xs.sum / (xs.length : ℝ),
        M2 := (xs.map (fun x => x ^ 2)).sum - xs.sum ^ 2 / (xs.length : ℝ),
        n := xs.length } := by
  induction xs using List.reverseRecOn with
  | nil => exact absurd rfl h
  | append_singleton ys x ih =>
    rcases eq_or_ne ys [] with hys | hys
    · subst hys
      simp only [List.nil_append, welfordRun, List.foldl_cons, List.foldl_nil, welfordStep]
      norm_num
    · rw [welfordRun_append_singleton, ih hys, welfordStep]
      have hL : ((ys.length : ℝ)) ≠ 0 := by
        simpa using hys
      have hL1 : ((ys.length : ℝ)) + 1 ≠ 0 := by positivity
      simp only [List.sum_append, List.map_append, List.length_append, List.sum_cons,
        List.sum_nil, List.map_cons, List.map_nil, List.length_cons, List.length_nil]
      refine WelfordState.mk.injEq _ _ _ _ _ _ ▸ ⟨?_, ?_, rfl⟩ <;>
        push_cast <;> field_simp <;> ring

theorem welfordFinalize_of_two_le (xs : List ℝ) (h : 2 ≤ xs.length) :
    welfordFinalize (welfordRun xs) =
      (some (xs.sum / (xs.length : ℝ)),
       some ((xs.map (fun x => x ^ 2)).sum / (xs.length : ℝ) -
         (xs.sum / (xs.length : ℝ)) ^ 2)) := by
  have hne : xs ≠ [] := by
    intro he
    rw [he] at h
    simp at h
  rw [welfordRun_closed_form xs hne, welfordFinalize]
  have h0 : xs.length ≠ 0 := by omega
  have h1 : xs.length ≠ 1 := by omega
  have hL : ((xs.length : ℝ)) ≠ 0 := by exact_mod_cast h0
  simp only [h0, h1, if_false]
  refine Prod.ext rfl ?_
  simp only [Option.some.injEq]
  field_simp
  ring

theorem welfordFinalize_mean (xs : List ℝ) (h : xs ≠ []) :
    (welfordFinalize (welfordRun xs)).1 = some (xs.sum / (xs.length : ℝ)) := by
  rw [welfordRun_closed_form xs h, welfordFinalize]
  have h0 : xs.length ≠ 0 := by simpa using h
  rcases eq_or_ne xs.length 1 with h1 | h1 <;> simp [h0, h1]

/-- Claim C4 (amended).  In exact arithmetic the one-pass accumulator of
StatisticsLocal matches the two-pass formulas: for every non-empty sequence
the mean output equals the arithmetic mean, and for every sequence of at
least two samples the variance output equals mean(x²) − mean(x)² (population
variance, divisor n).  For a one-sample sequence the accumulator's destructor
emits NaN as the variance, not the two-pass value 0. -/
theorem welford_matches_two_pass (xs : List ℝ) :
    (xs ≠ [] →
      (welfordFinalize (welfordRun xs)).1 = some (xs.sum / (xs.length : ℝ))) ∧
    (2 ≤ xs.length →
      welfordFinalize (welfordRun xs) =
        (some (xs.sum / (xs.length : ℝ)),
         some ((xs.map (fun x => x ^ 2)).sum / (xs.length : ℝ) -
           (xs.sum / (xs.length : ℝ)) ^ 2))) :=
  ⟨welfordFinalize_mean xs, welfordFinalize_of_two_le xs⟩

/-- Witness for claim C4 on the concrete input [1, 3]. -/
theorem welford_matches_two_pass_witness :
    welfordFinalize (welfordRun [(1 : ℝ), 3]) = (some 2, some 1) := by
  have h := (welford_matches_two_pass [(1 : ℝ), 3]).2 (by norm_num)
  rw [h]
  norm_num

/-- Counterexample to claim C4 as stated: on the non-empty one-sample sequence
[1] the accumulator emits NaN (none) as its variance, while the two-pass
formula mean(x²) − mean(x)² evaluates to 0. -/
theorem welford_singleton_variance_nan :
    welfordFinalize (welfordRun [(1 : ℝ)]) = (some 1, none) ∧
    (([(1 : ℝ)].map (fun x => x ^ 2)).sum / (([(1 : ℝ)].length : ℕ) : ℝ) -
        ([(1 : ℝ)].sum / (([(1 : ℝ)].length : ℕ) : ℝ)) ^ 2) = 0 ∧
    (none : Option ℝ) ≠ some 0 := by
  refine ⟨?_, by norm_num, by simp⟩
  rw [welfordRun_closed_form [(1 : ℝ)] (by simp), welfordFinalize]
  norm_num

/-! ### Helper lemmas about lists of complex samples -/

theorem list_sum_re (l : List ℂ) : (l.map Complex.re).sum = l.sum.re := by
  induction l with
  | nil => simp
  | cons a t ih => simp [ih]

theorem list_sum_im (l : List ℂ) : (l.map Complex.im).sum = l.sum.im := by
  induction l with
  | nil => simp
  | cons a t ih => simp [ih]

theorem list_sum_normSq (l : List ℂ) :
    (l.map Complex.normSq).sum =
      ((l.map Complex.re).map (fun x => x ^ 2)).sum +
        ((l.map Complex.im).map (fun x => x ^ 2)).sum := by
  induction l with
  | nil => simp
  | cons a t ih =>
    simp only [List.map_cons, List.sum_cons, ih, Complex.normSq_apply]
    ring

theorem chainOf_length (vs : List ℂ) (c j : ℕ) :
    (chainOf vs c j).length = vs.length / c := by
  simp [chainOf]

theorem chainMeanVar_of_two_le (vs : List ℂ) (c j : ℕ) (h : 2 ≤ vs.length / c) :
    chainMeanVar vs c j =
      (some (listMean (chainOf vs c j)), some (listVariance (chainOf vs c j))) := by
  have hlen : (chainOf vs c j).length = vs.length / c := chainOf_length vs c j
  have hre : 2 ≤ ((chainOf vs c j).map Complex.re).length := by
    simpa [hlen] using h
  have him : 2 ≤ ((chainOf vs c j).map Complex.im).length := by
    simpa [hlen] using h
  have hL0 : (chainOf vs c j).length ≠ 0 := by omega
  have hL : ((chainOf vs c j).length : ℝ) ≠ 0 := by exact_mod_cast hL0
  simp only [chainMeanVar]
  rw [welfordFinalize_of_two_le _ hre, welfordFinalize_of_two_le _ him]
  set ch := chainOf vs c j with hch
  refine Prod.ext ?_ ?_
  · simp only [Option.some.injEq]
    refine Complex.ext ?_ ?_
    · simp [listMean, list_sum_re, Complex.div_natCast_re]
    · simp [listMean, list_sum_im, Complex.div_natCast_im]
  · simp only [Option.some.injEq]
    rw [listVariance, list_sum_normSq, listMean]
    have hre2 : ((ch.map Complex.re).sum) = ch.sum.re := list_sum_re ch
    have him2 : ((ch.map Complex.im).sum) = ch.sum.im := list_sum_im ch
    have hnorm : Complex.normSq (ch.sum / ((ch.length : ℕ) : ℂ)) =
        (ch.sum.re / (ch.length : ℝ)) ^ 2 + (ch.sum.im / (ch.length : ℝ)) ^ 2 := by
      rw [Complex.normSq_apply]
      simp [Complex.div_natCast_re, Complex.div_natCast_im]
      ring
    simp only [List.length_map, hre2, him2, hnorm]
    ring

/-- optSum over a list whose entries are all defined. -/
theorem optSum_map_some {β : Type} {α : Type} [AddMonoid α] (l : List β) (f : β → α) :
    optSum (l.map (fun b => some (f b))) = some ((l.map f).sum) := by
  induction l with
  | nil => simp [optSum]
  | cons a t ih => simp [optSum, optAdd, ih]

/-- Clamping at zero before rounding agrees with clamping the rounded value. -/
theorem round_clamp (x : ℝ) :
    round (if x < 0 then (0 : ℝ) else x) = max 0 (round x) := by
  split
  case isTrue h =>
    have h1 : round x ≤ ⌈x⌉ := by
      rw [round]
      split
      · exact Int.floor_le_ceil x
      · exact le_rfl
    have h2 : (⌈x⌉ : ℤ) ≤ 0 := Int.ceil_le.mpr (by exact_mod_cast h.le)
    have h3 : round x ≤ 0 := le_trans h1 h2
    simp [max_eq_left h3]
  case isFalse h =>
    push_neg at h
    have h1 : (⌊x⌋ : ℤ) ≤ round x := by
      rw [round]
      split
      · exact le_rfl
      · exact Int.floor_le_ceil x
    have h2 : (0 : ℤ) ≤ ⌊x⌋ := Int.floor_nonneg.mpr h
    exact (max_eq_right (le_trans h2 h1)).symm

theorem localChainStats_of_two_le (vs : List ℂ) (c : ℕ) (h : 2 ≤ vs.length / c) :
    localChainStats vs c =
      (List.range c).map (fun j =>
        (some (listMean (chainOf vs c j)), some (listVariance (chainOf vs c j)))) := by
  simp only [localChainStats]
  exact List.map_congr_left (fun j _ => chainMeanVar_of_two_le vs c j h)

/-- Reassociating the sum over all global chains as the MPI reduction does:
sum over processes of per-process sums over that process's chains. -/
theorem chains_sum_eq {γ : Type} [AddCommMonoid γ]
    (valuess : List (List ℂ)) (c : ℕ) (f : List ℂ → γ) :
    ((chainsOf valuess c).map f).sum =
      (valuess.map (fun vs =>
        (((List.range c).map (fun j => f (chainOf vs c j))).sum))).sum := by
  simp only [chainsOf, List.map_flatten, List.sum_flatten, List.map_map]
  congr 1
  exact List.map_congr_left (fun vs _ => by rw [Function.comp_apply, Function.comp_apply, List.map_map]; rfl)

theorem chainOf_one (vs : List ℂ) : chainOf vs 1 0 = vs := by
  unfold chainOf
  simp only [Nat.div_one, mul_one, add_zero]
  apply List.ext_getElem
  · simp
  · intro i h1 h2
    simp only [List.getElem_map, List.getElem_range]
    exact List.getD_eq_getElem vs 0 h2

theorem listMean_components (ch : List ℂ) :
    Complex.mk ((ch.map Complex.re).sum / (((ch.map Complex.re).length : ℕ) : ℝ))
        ((ch.map Complex.im).sum / (((ch.map Complex.im).length : ℕ) : ℝ)) =
      listMean ch := by
  refine Complex.ext ?_ ?_ <;>
    simp [listMean, list_sum_re, list_sum_im]

theorem chainMeanVar_fst (vs : List ℂ) (c j : ℕ) (h : chainOf vs c j ≠ []) :
    (chainMeanVar vs c j).1 = some (listMean (chainOf vs c j)) := by
  have hre := welfordFinalize_mean ((chainOf vs c j).map Complex.re) (by simpa using h)
  have him := welfordFinalize_mean ((chainOf vs c j).map Complex.im) (by simpa using h)
  simp only [chainMeanVar, hre, him]
  rw [← listMean_components (chainOf vs c j)]

theorem welfordFinalize_singleton (x : ℝ) :
    welfordFinalize (welfordRun [x]) = (some x, none) := by
  rw [welfordRun_closed_form [x] (by simp), welfordFinalize]
  norm_num

/-- Claim C1 (amended).  For samples reshaped into chains of length n ≥ 2
with m = processes·c > 1 total chains and positive within-chain mean variance
W, Statistics returns: mean = global chain-mean average, standard error of the
mean = sqrt(B/m), reported variance = W, autocorrelation time
= max(0, round(0.5·(n·B/W − 1))), and R = sqrt((n−1)/n + B/W), where B is the
mean squared deviation of the per-chain means from the global mean and W the
mean of the per-chain variances. -/
theorem statistics_formulas (valuess : List (List ℂ)) (c n p : ℕ)
    (hc : 0 < c) (hn : 2 ≤ n) (hp : p < valuess.length)
    (hlen : ∀ vs ∈ valuess, vs.length = c * n)
    (hm : 1 < valuess.length * c)
    (hW : 0 < Wspec valuess c) :
    Statistics valuess c p = .ok (Stats.mk
      (some (muSpec valuess c))
      (some (Real.sqrt (Bspec valuess c / ((valuess.length * c : ℕ) : ℝ))))
      (some (Wspec valuess c))
      (some ((max 0 (round (0.5 * ((n : ℝ) * (Bspec valuess c / Wspec valuess c) - 1))) : ℤ) : ℝ))
      (some (Real.sqrt (((n : ℝ) - 1) / (n : ℝ) + Bspec valuess c / Wspec valuess c)))) := by
  have hval : valuess.getD p [] ∈ valuess := by
    rw [List.getD_eq_getElem valuess [] hp]
    exact List.getElem_mem hp
  have hvl : (valuess.getD p []).length = c * n := hlen _ hval
  have hnlt : ¬ ((valuess.getD p []).length < c) := by
    rw [hvl]
    have hcn : c * 1 ≤ c * n := Nat.mul_le_mul_left c (by omega)
    omega
  have hmod : (valuess.getD p []).length % c = 0 := by
    rw [hvl]; exact Nat.mul_mod_right c n
  have hdiv : (valuess.getD p []).length / c = n := by
    rw [hvl]; exact Nat.mul_div_cancel_left n hc
  have hSL : StatisticsLocal (valuess.getD p []) c =
      .ok (localChainStats (valuess.getD p []) c) := by
    simp only [StatisticsLocal]
    rw [if_neg hc.ne', if_neg (not_not_intro hmod)]
  have hm1 : ¬ (valuess.length * c = 1) := by omega
  have h2 : ∀ vs ∈ valuess, 2 ≤ vs.length / c := fun vs hvs => by
    rw [hlen vs hvs, Nat.mul_div_cancel_left n hc]; exact hn
  have hstep1 : ∀ vs ∈ valuess,
      optSum ((localChainStats vs c).map Prod.fst) =
        some (((List.range c).map (fun j => listMean (chainOf vs c j))).sum) := by
    intro vs hvs
    rw [localChainStats_of_two_le vs c (h2 vs hvs), List.map_map]
    exact optSum_map_some _ _
  have hmeanSum :
      optSum (valuess.map (fun vs => optSum ((localChainStats vs c).map Prod.fst))) =
        some (((chainsOf valuess c).map listMean).sum) := by
    rw [List.map_congr_left hstep1, optSum_map_some, chains_sum_eq]
  have hstep2 : ∀ vs ∈ valuess,
      optSum ((localChainStats vs c).map Prod.snd) =
        some (((List.range c).map (fun j => listVariance (chainOf vs c j))).sum) := by
    intro vs hvs
    rw [localChainStats_of_two_le vs c (h2 vs hvs), List.map_map]
    exact optSum_map_some _ _
  have hglobalW :
      optSum (valuess.map (fun vs => optSum ((localChainStats vs c).map Prod.snd))) =
        some (((chainsOf valuess c).map listVariance).sum) := by
    rw [List.map_congr_left hstep2, optSum_map_some, chains_sum_eq]
  have hstep3 : ∀ vs ∈ valuess,
      optSum ((localChainStats vs c).map
          (fun s => s.1.map (fun z => Complex.normSq (z - muSpec valuess c)))) =
        some (((List.range c).map
          (fun j => Complex.normSq (listMean (chainOf vs c j) - muSpec valuess c))).sum) := by
    intro vs hvs
    rw [localChainStats_of_two_le vs c (h2 vs hvs), List.map_map]
    exact optSum_map_some _ _
  have hglobalB :
      optSum (valuess.map (fun vs =>
          optSum ((localChainStats vs c).map
            (fun s => s.1.map (fun z => Complex.normSq (z - muSpec valuess c)))))) =
        some (((chainsOf valuess c).map
          (fun ch => Complex.normSq (listMean ch - muSpec valuess c))).sum) := by
    rw [List.map_congr_left hstep3, optSum_map_some, chains_sum_eq]
  have hmu : ((chainsOf valuess c).map listMean).sum / ((valuess.length * c : ℕ) : ℂ) =
      muSpec valuess c := rfl
  have hB : ((chainsOf valuess c).map
      (fun ch => Complex.normSq (listMean ch - muSpec valuess c))).sum /
        ((valuess.length * c : ℕ) : ℝ) = Bspec valuess c := rfl
  have hWe : ((chainsOf valuess c).map listVariance).sum /
      ((valuess.length * c : ℕ) : ℝ) = Wspec valuess c := rfl
  simp only [Statistics, hSL, hmeanSum, hdiv, Option.map_some', Option.some_bind, hmu,
    hglobalB, hglobalW, if_neg hnlt, if_neg hm1, hB, hWe, statsFromMoments]
  rw [round_clamp]
  rw [show Bspec valuess c / Wspec valuess c * (n : ℝ) =
      (n : ℝ) * (Bspec valuess c / Wspec valuess c) from mul_comm _ _]

/-- Claim C2.  With a single global chain (one process, one chain per
process), Statistics returns the arithmetic mean of the samples and NaN for
the standard error, variance, autocorrelation time and R. -/
theorem statistics_single_chain (vs : List ℂ) (h : vs ≠ []) :
    Statistics [vs] 1 0 =
      .ok (Stats.mk (some (vs.sum / (vs.length : ℂ))) none none none none) := by
  have h0 : vs.length ≠ 0 := by simpa using h
  have hSL : StatisticsLocal vs 1 = .ok (localChainStats vs 1) := by
    simp only [StatisticsLocal]
    rw [if_neg (by norm_num), if_neg (not_not_intro (Nat.mod_one _))]
  have hfst : (chainMeanVar vs 1 0).1 = some (listMean vs) := by
    rw [chainMeanVar_fst vs 1 0 (by rw [chainOf_one]; exact h), chainOf_one]
  have hlcs : localChainStats vs 1 = [chainMeanVar vs 1 0] := by
    simp [localChainStats, List.range_succ]
  simp only [Statistics, List.getD_cons_zero, hSL, hlcs, List.map_cons, List.map_nil,
    optSum, optAdd, hfst, List.length_cons, List.length_nil, statsFromMoments]
  norm_num [listMean, statsFromMoments]
  intro he
  exact absurd he h

/-- Witness for claim C2 on the concrete single-chain input [1, 2]. -/
theorem statistics_single_chain_witness :
    Statistics [[(1 : ℂ), 2]] 1 0 =
      .ok (Stats.mk (some ((3 : ℂ) / 2)) none none none none) := by
  have h := statistics_single_chain [(1 : ℂ), 2] (by simp)
  rw [h]
  norm_num

/-- Claim C3.  For a positive chain count, Statistics fails with
InvalidInputError exactly when the number of values is not a multiple of the
chain count or is smaller than the chain count; on well-shaped input it
returns a Stats value. -/
theorem statistics_shape_errors (values : List ℂ) (c : ℕ) (hc : 0 < c) :
    (Statistics [values] c 0 = .error .invalidInput ↔
      values.length % c ≠ 0 ∨ values.length < c) ∧
    (values.length % c = 0 ∧ c ≤ values.length →
      ∃ s, Statistics [values] c 0 = .ok s) := by
  by_cases h1 : values.length < c
  · have hS : Statistics [values] c 0 = .error .invalidInput := by
      simp only [Statistics, List.getD_cons_zero]
      rw [if_pos h1]
    exact ⟨by simp [hS, h1], fun hok => by omega⟩
  · by_cases h2 : values.length % c = 0
    · have hSL : StatisticsLocal values c = .ok (localChainStats values c) := by
        simp only [StatisticsLocal]
        rw [if_neg hc.ne', if_neg (not_not_intro h2)]
      have hS : ∃ s, Statistics [values] c 0 = .ok s := by
        simp only [Statistics, List.getD_cons_zero, hSL]
        rw [if_neg h1]
        exact ⟨_, rfl⟩
      obtain ⟨s, hs⟩ := hS
      refine ⟨?_, fun _ => ⟨s, hs⟩⟩
      rw [hs]
      simp [h1, h2]
    · have hSL : StatisticsLocal values c = .error .invalidInput := by
        simp only [StatisticsLocal]
        rw [if_neg hc.ne', if_pos h2]
      have hS : Statistics [values] c 0 = .error .invalidInput := by
        simp only [Statistics, List.getD_cons_zero, hSL]
        rw [if_neg h1]
      exact ⟨by simp [hS, h2], fun hok => absurd hok.1 h2⟩

/-- Witness for claim C3: chain count 2 with 3 values (not a multiple) fails;
chain count 2 with 4 values succeeds. -/
theorem statistics_shape_errors_witness :
    Statistics [[(1 : ℂ), 2, 3]] 2 0 = .error .invalidInput ∧
    ∃ s, Statistics [[(1 : ℂ), 2, 3, 4]] 2 0 = .ok s := by
  constructor
  · exact (statistics_shape_errors [(1 : ℂ), 2, 3] 2 (by norm_num)).1.mpr
      (by norm_num)
  · exact (statistics_shape_errors [(1 : ℂ), 2, 3, 4] 2 (by norm_num)).2
      (by norm_num)

/-- Counterexample to claim C1 as stated: two chains (m = 2 > 1) of length
n = 1 each.  The within-chain variances are NaN, so Statistics returns NaN
for the standard error rather than the claimed sqrt(B/m) = sqrt((1/4)/2). -/
theorem Statistics_eq_ok (valuess : List (List ℂ)) (c p : ℕ)
    (hnlt : ¬ ((valuess.getD p []).length < c))
    (hSL : StatisticsLocal (valuess.getD p []) c =
      .ok (localChainStats (valuess.getD p []) c)) :
    Statistics valuess c p = .ok (statsFromMoments
      ((optSum (valuess.map (fun vs => optSum ((localChainStats vs c).map Prod.fst)))).map
        (fun z => z / ((valuess.length * c : ℕ) : ℂ)))
      ((valuess.getD p []).length / c) (valuess.length * c)
      (if valuess.length * c = 1 then (none, none)
       else
        ((((optSum (valuess.map (fun vs =>
            optSum ((localChainStats vs c).map Prod.fst)))).map
          (fun z => z / ((valuess.length * c : ℕ) : ℂ))).bind (fun mu =>
            optSum (valuess.map (fun vs =>
              optSum ((localChainStats vs c).map
                (fun s => s.1.map (fun z => Complex.normSq (z - mu)))))))).map
          (fun x => x / ((valuess.length * c : ℕ) : ℝ)),
        (optSum (valuess.map (fun vs =>
            optSum ((localChainStats vs c).map Prod.snd)))).map
          (fun x => x / ((valuess.length * c : ℕ) : ℝ))))) := by
  simp only [Statistics, hSL, if_neg hnlt]

theorem statistics_length_one_chains_ctrex :
    Statistics [[(0 : ℂ), 1]] 2 0 =
      .ok (Stats.mk (some ((1 : ℂ) / 2)) none none none none) ∧
    (none : Option ℝ) ≠ some (Real.sqrt ((1 / 4 : ℝ) / 2)) := by
  refine ⟨?_, by simp⟩
  have hch0 : chainOf [(0 : ℂ), 1] 2 0 = [0] := by
    simp [chainOf, List.range_succ]
  have hch1 : chainOf [(0 : ℂ), 1] 2 1 = [1] := by
    simp [chainOf, List.range_succ]
  have hc0 : chainMeanVar [(0 : ℂ), 1] 2 0 = (some 0, none) := by
    simp only [chainMeanVar, hch0, List.map_cons, List.map_nil, Complex.zero_re,
      Complex.zero_im]
    rw [welfordFinalize_singleton]
    norm_num [Complex.ext_iff]
  have hc1 : chainMeanVar [(0 : ℂ), 1] 2 1 = (some 1, none) := by
    simp only [chainMeanVar, hch1, List.map_cons, List.map_nil, Complex.one_re,
      Complex.one_im]
    rw [welfordFinalize_singleton, welfordFinalize_singleton]
    norm_num [Complex.ext_iff]
  have hlcs : localChainStats [(0 : ℂ), 1] 2 = [(some 0, none), (some 1, none)] := by
    simp [localChainStats, List.range_succ, hc0, hc1]
  have hSL : StatisticsLocal ([[(0 : ℂ), 1]].getD 0 []) 2 =
      .ok (localChainStats ([[(0 : ℂ), 1]].getD 0 []) 2) := by
    simp only [List.getD_cons_zero, StatisticsLocal]
    rw [if_neg (by norm_num), if_neg (by norm_num)]
  rw [Statistics_eq_ok [[(0 : ℂ), 1]] 2 0 (by norm_num) hSL]
  simp only [List.getD_cons_zero, List.map_cons, List.map_nil, hlcs, hc0, hc1,
    List.length_cons, List.length_nil, optSum, optAdd, Option.map_some',
    Option.some_bind, Option.map_none']
  norm_num [statsFromMoments]

/-- Witness for the amended claim C1 on a concrete input: one process, two
interleaved chains [0, 2] and [2, 4] of length 2, so B = 1, W = 1, m = 2. -/
theorem statistics_formulas_witness :
    Statistics [[(0 : ℂ), 2, 2, 4]] 2 0 = .ok (Stats.mk
      (some (muSpec [[(0 : ℂ), 2, 2, 4]] 2))
      (some (Real.sqrt (Bspec [[(0 : ℂ), 2, 2, 4]] 2 / ((1 * 2 : ℕ) : ℝ))))
      (some (Wspec [[(0 : ℂ), 2, 2, 4]] 2))
      (some ((max 0 (round (0.5 * (((2 : ℕ) : ℝ) *
        (Bspec [[(0 : ℂ), 2, 2, 4]] 2 / Wspec [[(0 : ℂ), 2, 2, 4]] 2) - 1))) : ℤ) : ℝ))
      (some (Real.sqrt ((((2 : ℕ) : ℝ) - 1) / ((2 : ℕ) : ℝ) +
        Bspec [[(0 : ℂ), 2, 2, 4]] 2 / Wspec [[(0 : ℂ), 2, 2, 4]] 2)))) := by
  have hch0 : chainOf [(0 : ℂ), 2, 2, 4] 2 0 = [0, 2] := by
    simp [chainOf, List.range_succ]
  have hch1 : chainOf [(0 : ℂ), 2, 2, 4] 2 1 = [2, 4] := by
    simp [chainOf, List.range_succ]
  have hWval : Wspec [[(0 : ℂ), 2, 2, 4]] 2 = 1 := by
    norm_num [Wspec, chainsOf, List.range_succ, hch0, hch1, listVariance, listMean,
      Complex.normSq_apply, Complex.div_natCast_re, Complex.div_natCast_im]
  exact statistics_formulas [[(0 : ℂ), 2, 2, 4]] 2 2 0 (by norm_num) (by norm_num)
    (by norm_num) (by intro vs hvs; simp at hvs; rw [hvs]; rfl) (by norm_num)
    (by rw [hWval]; norm_num)

/-! ### Per-process sample quota (claim C9) and VMC driver target check (claim C7) -/

/-- Claim C9.  The per-process sample quota int(ceil(nsamples/totalnodes))
equals the rounded-up integer division (N + P - 1) / P. -/
theorem nsamples_node_eq_ceil_div (N P : ℕ) (hP : 0 < P) :
    nsamplesNode N P = ((N + P - 1) / P : ℕ) := by
  unfold nsamplesNode
  obtain ⟨r, hr, hre⟩ : ∃ r, r < P ∧ P * ((N + P - 1) / P) + r = N + P - 1 :=
    ⟨_, Nat.mod_lt _ hP, Nat.div_add_mod (N + P - 1) P⟩
  set k := (N + P - 1) / P with hk
  obtain ⟨M, hM⟩ : ∃ M, M = P * k := ⟨_, rfl⟩
  rw [← hM] at hre
  have key1 : N ≤ M := by omega
  have key2 : M < N + P := by omega
  have hQP : (0 : ℚ) < (P : ℚ) := by exact_mod_cast hP
  rw [Int.ceil_eq_iff]
  have hcast : ((k : ℚ)) * P = (M : ℚ) := by
    rw [hM]; push_cast; ring
  constructor
  · rw [lt_div_iff₀ hQP]
    have hx : ((k : ℚ) - 1) * P = (M : ℚ) - P := by rw [← hcast]; ring
    have h2 : (M : ℚ) < (N : ℚ) + (P : ℚ) := by exact_mod_cast key2
    push_cast
    rw [hx]
    linarith
  · rw [div_le_iff₀ hQP]
    have h1 : (N : ℚ) ≤ (M : ℚ) := by exact_mod_cast key1
    push_cast
    rw [hcast]
    exact h1

/-- Witness for claim C9: 10 samples over 3 processes give quota 4. -/
theorem nsamples_node_witness : nsamplesNode 10 3 = 4 := by
  have h := nsamples_node_eq_ceil_div 10 3 (by norm_num)
  rw [h]
  norm_num

/-- Claim C7 fails on the code: for the invalid target "magnetization",
Init succeeds (the InvalidInputError is constructed but never thrown), and the
invalid target only surfaces inside Advance as a runtime error, after
ComputeSamples has already run (first component true). -/
theorem vmc_invalid_target_ctrex :
    vmcInit (VmcConfig.mk 1000 1 "magnetization" "Sr" true none "LLT") =
      .ok (VmcState.mk 1000 true) ∧
    vmcAdvanceStep "magnetization" = (true, .error .runtimeError) := by
  constructor
  · unfold vmcInit
    rw [if_neg (by simp), if_neg (by simp)]
    have h : nsamplesNode 1000 1 = (1000 : ℤ) := by
      rw [nsamples_node_eq_ceil_div 1000 1 (by norm_num)]
      norm_num
    rw [h]
    rfl
  · rfl

/-! ### Stochastic-reconfiguration update (claims C5, C6) -/

open Matrix

theorem solveLinear_fin_one (S : Matrix (Fin 1) (Fin 1) ℂ) (b : Fin 1 → ℂ) :
    solveLinear S b = fun _ => (S 0 0)⁻¹ * b 0 := by
  funext i
  rw [solveLinear, Matrix.inv_def, Matrix.adjugate_fin_one, Matrix.det_fin_one]
  rw [Matrix.smul_mulVec_assoc, Matrix.one_mulVec]
  simp [Ring.inverse_eq_inv', Fin.fin_one_eq_zero i]

theorem sdirect_fin_example :
    Sdirect !![(1 : ℂ); 2] ![3/4, 1/4] 1 0 0 = 11/4 := by
  simp [Sdirect, Matrix.mul_apply, Matrix.diagonal, Fin.sum_univ_two, Matrix.one_apply]
  norm_num [Complex.conj_ofNat]

theorem bvec_fin_example :
    bVec !![(1 : ℂ); 2] ![3/4, 1/4] ![1, 1] 0 = 5/4 := by
  simp [bVec, Matrix.mulVec, Matrix.mul_apply, Matrix.diagonal, dotProduct,
    Fin.sum_univ_two]
  norm_num [Complex.conj_ofNat]

theorem siter_fin_example :
    SiterMat !![(1 : ℂ); 2] (1 / ((2 * 1 : ℕ) : ℝ)) 1 0 0 = 7/2 := by
  simp [SiterMat, Matrix.mul_apply, Fin.sum_univ_two, Matrix.one_apply]
  norm_num [Complex.conj_ofNat]

/-- Claim C5 fails on the code: with identical centered O = [1; 2], centered
local energies E = [1, 1], probability weights psi2 = [3/4, 1/4] and shift 1
(one process), the direct path solves (Oᴴ·diag(psi2)·O + 1)·Δ = b giving
Δ = 5/11, while the iterative path solves (Oᴴ·O/(nsamp·totalnodes) + 1)·Δ = b
giving Δ = 5/14: the shift is not applied to identically scaled operators and
the two exact solutions differ by ≈27%, far beyond the 1e-3 tolerance. -/
theorem vexact_solver_paths_disagree :
    updateDeltaSR false false !![(1 : ℂ); 2] ![3/4, 1/4] ![1, 1] 1 1 =
      (fun _ => (5 : ℂ) / 11) ∧
    updateDeltaSR true false !![(1 : ℂ); 2] ![3/4, 1/4] ![1, 1] 1 1 =
      (fun _ => (5 : ℂ) / 14) ∧
    ((5 : ℂ) / 11) ≠ ((5 : ℂ) / 14) := by
  refine ⟨?_, ?_, by norm_num⟩
  · simp only [updateDeltaSR, Bool.false_eq_true, if_false]
    rw [solveLinear_fin_one]
    funext i
    rw [sdirect_fin_example, bvec_fin_example]
    norm_num
  · simp only [updateDeltaSR, if_true]
    rw [solveLinear_fin_one]
    funext i
    rw [siter_fin_example, bvec_fin_example]
    norm_num

theorem isHermitian_real_smul {np : ℕ} (c : ℝ) (M : Matrix (Fin np) (Fin np) ℂ)
    (hM : M.IsHermitian) : (((c : ℝ) : ℂ) • M).IsHermitian := by
  unfold Matrix.IsHermitian
  rw [conjTranspose_smul, Complex.star_def, Complex.conj_ofReal, hM.eq]

theorem Sdirect_isHermitian {ns np : ℕ} (O : Matrix (Fin ns) (Fin np) ℂ)
    (psi2 : Fin ns → ℝ) (shift : ℝ) : (Sdirect O psi2 shift).IsHermitian := by
  unfold Sdirect
  apply Matrix.IsHermitian.add
  · have hD : (Matrix.diagonal fun k => ((psi2 k : ℝ) : ℂ)).IsHermitian := by
      apply Matrix.isHermitian_diagonal_of_self_adjoint
      show star _ = _
      funext k
      exact Complex.conj_ofReal (psi2 k)
    have h := Matrix.isHermitian_mul_mul_conjTranspose Oᴴ hD
    rwa [conjTranspose_conjTranspose] at h
  · exact isHermitian_real_smul shift 1 Matrix.isHermitian_one

theorem SiterMat_isHermitian {ns np : ℕ} (O : Matrix (Fin ns) (Fin np) ℂ)
    (scale shift : ℝ) : (SiterMat O scale shift).IsHermitian := by
  unfold SiterMat
  exact (isHermitian_real_smul scale _ (Matrix.isHermitian_transpose_mul_self O)).add
    (isHermitian_real_smul shift 1 Matrix.isHermitian_one)

theorem hermitian_dot_real {np : ℕ} (S : Matrix (Fin np) (Fin np) ℂ)
    (hS : S.IsHermitian) (d : Fin np → ℂ) :
    star d ⬝ᵥ S.mulVec d = (((star d ⬝ᵥ S.mulVec d).re : ℝ) : ℂ) := by
  have hstar : star (star d ⬝ᵥ S.mulVec d) = star d ⬝ᵥ S.mulVec d := by
    calc star (star d ⬝ᵥ S.mulVec d)
        = star (S.mulVec d) ⬝ᵥ d := (star_dotProduct _ _).symm
      _ = (star d ᵥ* Sᴴ) ⬝ᵥ d := by rw [star_mulVec]
      _ = (star d ᵥ* S) ⬝ᵥ d := by rw [hS.eq]
      _ = star d ⬝ᵥ S.mulVec d := (dotProduct_mulVec _ _ _).symm
  have him : (star d ⬝ᵥ S.mulVec d).im = 0 := by
    have h2 := congrArg Complex.im hstar
    simp only [Complex.star_def, Complex.conj_im] at h2
    linarith
  exact Complex.ext (by simp) (by simp [him])

/-- The S-norm of the rescaled update is exactly 1 when the raw update's
S-norm has positive real part (S Hermitian). -/
theorem rescaleDelta_snorm_one {np : ℕ} (S : Matrix (Fin np) (Fin np) ℂ)
    (hS : S.IsHermitian) (d : Fin np → ℂ)
    (hpos : 0 < (star d ⬝ᵥ S.mulVec d).re) :
    star (rescaleDelta S d) ⬝ᵥ S.mulVec (rescaleDelta S d) = 1 := by
  have hd : rescaleDelta S d =
      (((Real.sqrt ((star d ⬝ᵥ S.mulVec d).re) : ℝ) : ℂ))⁻¹ • d := by
    funext i
    simp [rescaleDelta, div_eq_inv_mul]
  rw [hd, Matrix.mulVec_smul, star_smul, smul_dotProduct, dotProduct_smul]
  rw [star_inv₀, Complex.star_def, Complex.conj_ofReal]
  rw [smul_eq_mul, smul_eq_mul]
  nth_rewrite 3 [hermitian_dot_real S hS d]
  have key : (Real.sqrt ((star d ⬝ᵥ S.mulVec d).re))⁻¹ *
      ((Real.sqrt ((star d ⬝ᵥ S.mulVec d).re))⁻¹ * ((star d ⬝ᵥ S.mulVec d).re)) = 1 := by
    rw [← mul_assoc, ← mul_inv, Real.mul_self_sqrt hpos.le,
      inv_mul_cancel₀ hpos.ne']
  exact_mod_cast key

theorem branchS_isHermitian {ns np : ℕ} (it : Bool) (O : Matrix (Fin ns) (Fin np) ℂ)
    (psi2 : Fin ns → ℝ) (shift : ℝ) (totalnodes : ℕ) :
    (branchS it O psi2 shift totalnodes).IsHermitian := by
  cases it
  · exact Sdirect_isHermitian O psi2 shift
  · exact SiterMat_isHermitian O _ shift

theorem updateDeltaSR_rescale_eq {ns np : ℕ} (O : Matrix (Fin ns) (Fin np) ℂ)
    (psi2 : Fin ns → ℝ) (elocs : Fin ns → ℂ) (shift : ℝ) (totalnodes : ℕ)
    (it : Bool) :
    updateDeltaSR it true O psi2 elocs shift totalnodes =
      rescaleDelta (branchS it O psi2 shift totalnodes)
        (solveLinear (branchS it O psi2 shift totalnodes) (bVec O psi2 elocs)) := by
  cases it <;> simp [updateDeltaSR, branchS]

/-- Claim C6.  With the rescale option enabled, UpdateParameters divides the
solved update by sqrt(Re(Δᴴ·S·Δ)) — via the same rescaleDelta postprocessing
applied to the S of whichever branch produced Δ — and the rescaled update's
S-norm Δᴴ·S·Δ equals 1 whenever the raw S-norm is positive. -/
theorem rescale_postprocessing {ns np : ℕ} (O : Matrix (Fin ns) (Fin np) ℂ)
    (psi2 : Fin ns → ℝ) (elocs : Fin ns → ℂ) (shift : ℝ) (totalnodes : ℕ)
    (it : Bool)
    (hpos : 0 < (star (solveLinear (branchS it O psi2 shift totalnodes)
        (bVec O psi2 elocs)) ⬝ᵥ
      (branchS it O psi2 shift totalnodes).mulVec
        (solveLinear (branchS it O psi2 shift totalnodes) (bVec O psi2 elocs))).re) :
    updateDeltaSR it true O psi2 elocs shift totalnodes =
      rescaleDelta (branchS it O psi2 shift totalnodes)
        (solveLinear (branchS it O psi2 shift totalnodes) (bVec O psi2 elocs)) ∧
    star (updateDeltaSR it true O psi2 elocs shift totalnodes) ⬝ᵥ
      (branchS it O psi2 shift totalnodes).mulVec
        (updateDeltaSR it true O psi2 elocs shift totalnodes) = 1 := by
  refine ⟨updateDeltaSR_rescale_eq O psi2 elocs shift totalnodes it, ?_⟩
  rw [updateDeltaSR_rescale_eq O psi2 elocs shift totalnodes it]
  exact rescaleDelta_snorm_one _ (branchS_isHermitian it O psi2 shift totalnodes) _ hpos

theorem rescale_postprocessing_witness :
    (0 : ℝ) <
      (star (solveLinear (branchS false !![(1 : ℂ)] ![1] 0 1) (bVec !![(1 : ℂ)] ![1] ![1])) ⬝ᵥ
        (branchS false !![(1 : ℂ)] ![1] 0 1).mulVec
          (solveLinear (branchS false !![(1 : ℂ)] ![1] 0 1) (bVec !![(1 : ℂ)] ![1] ![1]))).re ∧
    (updateDeltaSR false true !![(1 : ℂ)] ![1] ![1] 0 1 =
      rescaleDelta (branchS false !![(1 : ℂ)] ![1] 0 1)
        (solveLinear (branchS false !![(1 : ℂ)] ![1] 0 1) (bVec !![(1 : ℂ)] ![1] ![1])) ∧
    star (updateDeltaSR false true !![(1 : ℂ)] ![1] ![1] 0 1) ⬝ᵥ
      (branchS false !![(1 : ℂ)] ![1] 0 1).mulVec
        (updateDeltaSR false true !![(1 : ℂ)] ![1] ![1] 0 1) = 1) := by
  have hb : bVec !![(1 : ℂ)] ![1] ![1] = fun _ => 1 := by
    funext i
    simp [bVec, Matrix.mulVec, Matrix.mul_apply, Matrix.diagonal, dotProduct,
      Fin.sum_univ_one, Fin.fin_one_eq_zero i]
  have hSmat : branchS false !![(1 : ℂ)] ![1] 0 1 = 1 := by
    ext i j
    rw [Fin.fin_one_eq_zero i, Fin.fin_one_eq_zero j]
    simp [branchS, Sdirect, Matrix.mul_apply, Matrix.diagonal, Fin.sum_univ_one,
      Matrix.one_apply]
  have hd : solveLinear (branchS false !![(1 : ℂ)] ![1] 0 1)
      (bVec !![(1 : ℂ)] ![1] ![1]) = fun _ => 1 := by
    rw [hSmat, hb, solveLinear, inv_one, Matrix.one_mulVec]
  have hpos : (0 : ℝ) <
      (star (solveLinear (branchS false !![(1 : ℂ)] ![1] 0 1) (bVec !![(1 : ℂ)] ![1] ![1])) ⬝ᵥ
        (branchS false !![(1 : ℂ)] ![1] 0 1).mulVec
          (solveLinear (branchS false !![(1 : ℂ)] ![1] 0 1)
            (bVec !![(1 : ℂ)] ![1] ![1]))).re := by
    rw [hd, hSmat]
    simp [Matrix.one_mulVec, dotProduct, Fin.sum_univ_one]
  exact ⟨hpos, rescale_postprocessing !![(1 : ℂ)] ![1] ![1] 0 1 false hpos⟩

/-! ### Exchange samplers (claims C8, C10) -/

/-- Claim C8.  In the pairwise-exchange branch of Sweep (branch draw above
0.2) with an actually proposed move (site values differing by more than eps),
the move is accepted exactly when |exp(LogValDiff(v, [si,sj], [v sj, v si],
lookup))|² exceeds the fresh acceptance draw: on acceptance the configuration
and the lookup are updated through the incremental contract and the pairwise
accept counter increments; otherwise only the attempt counter increments. -/
theorem sweep_pairwise_acceptance {LT : Type}
    (lvd : List ℝ → List ℕ → List ℝ → LT → ℂ)
    (updLT : List ℝ → List ℕ → List ℝ → LT → LT)
    (clusters : List (ℕ × ℕ)) (L : ℕ) (eps : ℝ)
    (s : SweepState LT) (d : SweepDraws)
    (hbranch : (0.2 : ℝ) < d.branch)
    (hmove : eps < |s.v.getD (clusters.getD d.rcl (0, 0)).1 0 -
      s.v.getD (clusters.getD d.rcl (0, 0)).2 0|) :
    sweepIter lvd updLT clusters L eps s d =
      (if d.acc < Complex.abs (Complex.exp (lvd s.v
          [(clusters.getD d.rcl (0, 0)).1, (clusters.getD d.rcl (0, 0)).2]
          [s.v.getD (clusters.getD d.rcl (0, 0)).2 0,
           s.v.getD (clusters.getD d.rcl (0, 0)).1 0] s.lt)) ^ 2
       then SweepState.mk
          (updateConf s.v
            [(clusters.getD d.rcl (0, 0)).1, (clusters.getD d.rcl (0, 0)).2]
            [s.v.getD (clusters.getD d.rcl (0, 0)).2 0,
             s.v.getD (clusters.getD d.rcl (0, 0)).1 0])
          (updLT s.v
            [(clusters.getD d.rcl (0, 0)).1, (clusters.getD d.rcl (0, 0)).2]
            [s.v.getD (clusters.getD d.rcl (0, 0)).2 0,
             s.v.getD (clusters.getD d.rcl (0, 0)).1 0] s.lt)
          (s.accept.1 + 1, s.accept.2) (s.moves.1 + 1, s.moves.2)
       else SweepState.mk s.v s.lt s.accept (s.moves.1 + 1, s.moves.2)) := by
  simp only [sweepIter, if_pos hbranch, if_pos hmove, Complex.sq_abs]

/-- Witness for claim C8: cluster (0, 1) on configuration [0, 1] with a
trivial log-amplitude-difference oracle; the draw 1/2 is below |exp 0|² = 1,
so the exchange is accepted. -/
theorem sweep_pairwise_acceptance_witness :
    ((0.2 : ℝ) < 1 ∧ (0 : ℝ) < |([(0 : ℝ), 1]).getD 0 0 - ([(0 : ℝ), 1]).getD 1 0|) ∧
    sweepIter (fun _ _ _ _ => (0 : ℂ)) (fun _ _ _ lt => lt) [(0, 1)] 2 0
        (SweepState.mk [0, 1] () (0, 0) (0, 0)) (SweepDraws.mk 1 0 0 0 (1/2)) =
      SweepState.mk [1, 0] () (1, 0) (1, 0) := by
  refine ⟨⟨by norm_num, by norm_num⟩, ?_⟩
  rw [sweep_pairwise_acceptance (fun _ _ _ _ => (0 : ℂ)) (fun _ _ _ lt => lt)
    [(0, 1)] 2 0 (SweepState.mk [0, 1] () (0, 0) (0, 0)) (SweepDraws.mk 1 0 0 0 (1/2))
    (by norm_num) (by norm_num)]
  norm_num [Complex.exp_zero, updateConf]

theorem getD_set_ne (v : List ℝ) (i j : ℕ) (x : ℝ) (h : i ≠ j) :
    (v.set i x).getD j 0 = v.getD j 0 := by
  simp [List.getD, List.getElem?_set_ne h]

theorem set_getD_self (v : List ℝ) (a : ℕ) (ha : a < v.length) :
    v.set a (v.getD a 0) = v := by
  induction v generalizing a with
  | nil => simp
  | cons y t ih =>
    cases a with
    | zero => simp
    | succ n =>
      simp only [List.set_cons_succ, List.getD_cons_succ]
      rw [ih n (by simpa using ha)]

theorem getD_cons_set_perm (t : List ℝ) (b : ℕ) (x : ℝ) (hb : b < t.length) :
    ((t.getD b 0) :: t.set b x).Perm (x :: t) := by
  induction t generalizing b with
  | nil => simp at hb
  | cons y t ih =>
    cases b with
    | zero =>
      simp only [List.getD_cons_zero, List.set_cons_zero]
      exact List.Perm.swap x y t
    | succ n =>
      simp only [List.getD_cons_succ, List.set_cons_succ]
      have h1 : ((t.getD n 0) :: y :: t.set n x).Perm (y :: (t.getD n 0) :: t.set n x) :=
        List.Perm.swap y (t.getD n 0) (t.set n x)
      have h2 : (y :: (t.getD n 0) :: t.set n x).Perm (y :: x :: t) :=
        (ih n (by simpa using hb)).cons y
      have h3 : (y :: x :: t).Perm (x :: y :: t) := List.Perm.swap x y t
      exact (h1.trans h2).trans h3

theorem listSwap_perm_ne (v : List ℝ) : ∀ a b : ℕ, a ≠ b → a < v.length →
    b < v.length → (listSwap v a b).Perm v := by
  induction v with
  | nil =>
    intro a b _ ha _
    simp at ha
  | cons y t ih =>
    intro a b hab ha hb
    match a, b, hab with
    | 0, k+1, _ =>
      have he : listSwap (y :: t) 0 (k + 1) = t.getD k 0 :: t.set k y := by
        simp [listSwap]
      rw [he]
      exact getD_cons_set_perm t k y (by simpa using hb)
    | j+1, 0, _ =>
      have he : listSwap (y :: t) (j + 1) 0 = t.getD j 0 :: t.set j y := by
        simp [listSwap]
      rw [he]
      exact getD_cons_set_perm t j y (by simpa using ha)
    | j+1, k+1, hab2 =>
      have he : listSwap (y :: t) (j + 1) (k + 1) = y :: listSwap t j k := by
        simp [listSwap]
      rw [he]
      exact (ih j k (by simpa using hab2) (by simpa using ha)
        (by simpa using hb)).cons y

theorem listSwap_perm (v : List ℝ) (a b : ℕ) (ha : a < v.length)
    (hb : b < v.length) : (listSwap v a b).Perm v := by
  rcases eq_or_ne a b with rfl | hab
  · rw [listSwap, List.set_set, set_getD_self v a ha]
  · exact listSwap_perm_ne v a b hab ha hb

theorem mem_swapIdxList (ps : List (ℕ × ℕ)) (i : ℕ) :
    i ∈ swapIdxList ps ↔ ∃ p ∈ ps, i = p.1 ∨ i = p.2 := by
  simp only [swapIdxList, List.mem_flatten, List.mem_map]
  constructor
  · rintro ⟨l, ⟨⟨u, w⟩, hpw, rfl⟩, hil⟩
    simp only [List.mem_cons, List.not_mem_nil, or_false] at hil
    exact ⟨(u, w), hpw, hil⟩
  · rintro ⟨⟨u, w⟩, hpw, hiy⟩
    refine ⟨[u, w], ⟨(u, w), hpw, rfl⟩, ?_⟩
    simpa using hiy

theorem getD_listSwap_ne (v : List ℝ) (a b i : ℕ) (hia : i ≠ a) (hib : i ≠ b) :
    (listSwap v a b).getD i 0 = v.getD i 0 := by
  rw [listSwap, getD_set_ne _ _ _ _ hib.symm, getD_set_ne _ _ _ _ hia.symm]

theorem swapValList_congr (v w : List ℝ) (ps : List (ℕ × ℕ))
    (h : ∀ p ∈ ps, v.getD p.1 0 = w.getD p.1 0 ∧ v.getD p.2 0 = w.getD p.2 0) :
    swapValList v ps = swapValList w ps := by
  induction ps with
  | nil => rfl
  | cons p ps ih =>
    have hp := h p (by simp)
    have ht := ih (fun q hq => h q (by simp [hq]))
    simp only [swapValList, List.map_cons, List.flatten_cons] at *
    rw [hp.1, hp.2, ht]

theorem updateConf_swaps_perm (ps : List (ℕ × ℕ)) : ∀ v : List ℝ,
    (swapIdxList ps).Nodup → (∀ i ∈ swapIdxList ps, i < v.length) →
    (updateConf v (swapIdxList ps) (swapValList v ps)).Perm v := by
  induction ps with
  | nil =>
    intro v _ _
    simp [updateConf, swapIdxList, swapValList]
  | cons p ps ih =>
    intro v hnd hlt
    obtain ⟨a, b⟩ := p
    have hcons : swapIdxList ((a, b) :: ps) = a :: b :: swapIdxList ps := by
      simp [swapIdxList]
    have hconsv : swapValList v ((a, b) :: ps) =
        v.getD b 0 :: v.getD a 0 :: swapValList v ps := by
      simp [swapValList]
    rw [hcons] at hnd hlt
    rw [hcons, hconsv]
    simp only [List.nodup_cons, List.mem_cons, not_or] at hnd
    have hab : a ≠ b := hnd.1.1
    have hanotin : a ∉ swapIdxList ps := hnd.1.2
    have hbnotin : b ∉ swapIdxList ps := hnd.2.1
    have hndt : (swapIdxList ps).Nodup := hnd.2.2
    have ha : a < v.length := hlt a (by simp)
    have hb : b < v.length := hlt b (by simp)
    have hstep : updateConf v (a :: b :: swapIdxList ps)
        (v.getD b 0 :: v.getD a 0 :: swapValList v ps) =
        updateConf (listSwap v a b) (swapIdxList ps) (swapValList v ps) := by
      simp [updateConf, listSwap]
    rw [hstep]
    have hvals : swapValList v ps = swapValList (listSwap v a b) ps := by
      apply swapValList_congr
      intro q hq
      have h1 : q.1 ∈ swapIdxList ps := (mem_swapIdxList ps q.1).mpr ⟨q, hq, Or.inl rfl⟩
      have h2 : q.2 ∈ swapIdxList ps := (mem_swapIdxList ps q.2).mpr ⟨q, hq, Or.inr rfl⟩
      constructor
      · exact (getD_listSwap_ne v a b q.1 (fun he => hanotin (he ▸ h1))
          (fun he => hbnotin (he ▸ h1))).symm
      · exact (getD_listSwap_ne v a b q.2 (fun he => hanotin (he ▸ h2))
          (fun he => hbnotin (he ▸ h2))).symm
    rw [hvals]
    have hlen : (listSwap v a b).length = v.length := by simp [listSwap]
    have h1 := ih (listSwap v a b) hndt
      (fun i hi => by rw [hlen]; exact hlt i (by simp [hi]))
    exact h1.trans (listSwap_perm v a b ha hb)

theorem swapIdxList_cons (p : ℕ × ℕ) (ps : List (ℕ × ℕ)) :
    swapIdxList (p :: ps) = p.1 :: p.2 :: swapIdxList ps := by
  simp [swapIdxList]

theorem swapValList_cons (v : List ℝ) (p : ℕ × ℕ) (ps : List (ℕ × ℕ)) :
    swapValList v (p :: ps) = v.getD p.2 0 :: v.getD p.1 0 :: swapValList v ps := by
  simp [swapValList]

theorem blockChanges_go (v : List ℝ) (eps : ℝ) (L r rp : ℕ)
    (idx : ℕ → ℕ → ℕ → ℕ) : ∀ (l : List ℕ) (acc : List ℕ × List ℝ),
    l.foldl (fun acc j =>
      if eps < v.getD (idx L r j) 0 - v.getD (idx L rp j) 0 then
        (acc.1 ++ [idx L r j, idx L rp j],
         acc.2 ++ [v.getD (idx L rp j) 0, v.getD (idx L r j) 0])
      else acc) acc =
    (acc.1 ++ swapIdxList ((l.filter (fun j =>
        decide (eps < v.getD (idx L r j) 0 - v.getD (idx L rp j) 0))).map
        (fun j => (idx L r j, idx L rp j))),
     acc.2 ++ swapValList v ((l.filter (fun j =>
        decide (eps < v.getD (idx L r j) 0 - v.getD (idx L rp j) 0))).map
        (fun j => (idx L r j, idx L rp j)))) := by
  intro l
  induction l with
  | nil =>
    intro acc
    simp [swapIdxList, swapValList]
  | cons j l ihl =>
    intro acc
    simp only [List.foldl_cons, List.filter_cons]
    by_cases hc : eps < v.getD (idx L r j) 0 - v.getD (idx L rp j) 0
    · rw [if_pos hc, ihl]
      simp only [decide_eq_true_eq, if_pos hc, List.map_cons, swapIdxList_cons,
        swapValList_cons]
      refine Prod.ext ?_ ?_ <;> simp
    · rw [if_neg hc, ihl]
      simp only [decide_eq_true_eq, if_neg hc]

theorem blockChanges_eq (v : List ℝ) (eps : ℝ) (L r rp : ℕ)
    (idx : ℕ → ℕ → ℕ → ℕ) :
    blockChanges v eps L r rp idx =
      (swapIdxList (((List.range L).filter (fun j =>
          decide (eps < v.getD (idx L r j) 0 - v.getD (idx L rp j) 0))).map
          (fun j => (idx L r j, idx L rp j))),
       swapValList v (((List.range L).filter (fun j =>
          decide (eps < v.getD (idx L r j) 0 - v.getD (idx L rp j) 0))).map
          (fun j => (idx L r j, idx L rp j)))) := by
  rw [blockChanges, blockChanges_go]
  simp

theorem lineIdx_inj (L r j r2 j2 : ℕ) (hj : j < L) (hj2 : j2 < L)
    (h : r * L + j = r2 * L + j2) : r = r2 ∧ j = j2 := by
  have h1 : (r * L + j) % L = j := by
    rw [mul_comm, Nat.mul_add_mod, Nat.mod_eq_of_lt hj]
  have h2 : (r2 * L + j2) % L = j2 := by
    rw [mul_comm, Nat.mul_add_mod, Nat.mod_eq_of_lt hj2]
  have hj3 : j = j2 := by rw [← h1, ← h2, h]
  refine ⟨?_, hj3⟩
  have hL : 0 < L := by omega
  have : r * L = r2 * L := by omega
  exact Nat.eq_of_mul_eq_mul_right hL this

theorem lineIdx_lt (L c j : ℕ) (hc : c < L) (hj : j < L) : c * L + j < L * L := by
  have h3 : (c + 1) * L ≤ L * L := Nat.mul_le_mul_right L hc
  have h2 : c * L + L = (c + 1) * L := by ring
  omega

theorem swapIdxList_nodup_of_inj (f g : ℕ → ℕ) : ∀ sel : List ℕ, sel.Nodup →
    (∀ j ∈ sel, f j ≠ g j) →
    (∀ j ∈ sel, ∀ k ∈ sel, f j = f k → j = k) →
    (∀ j ∈ sel, ∀ k ∈ sel, g j = g k → j = k) →
    (∀ j ∈ sel, ∀ k ∈ sel, f j ≠ g k) →
    (swapIdxList (sel.map (fun j => (f j, g j)))).Nodup := by
  intro sel
  induction sel with
  | nil =>
    intro _ _ _ _ _
    simp [swapIdxList]
  | cons j sel ih =>
    intro hnd hne hff hgg hfg
    simp only [List.nodup_cons] at hnd
    have hcons : swapIdxList ((j :: sel).map (fun j => (f j, g j))) =
        f j :: g j :: swapIdxList (sel.map (fun j => (f j, g j))) := by
      simp [swapIdxList]
    rw [hcons, List.nodup_cons, List.nodup_cons]
    have hmem : ∀ i, i ∈ swapIdxList (sel.map (fun j => (f j, g j))) →
        ∃ k ∈ sel, i = f k ∨ i = g k := by
      intro i hi
      obtain ⟨p, hp, hor⟩ := (mem_swapIdxList _ i).mp hi
      obtain ⟨k, hk, rfl⟩ := List.mem_map.mp hp
      exact ⟨k, hk, hor⟩
    refine ⟨?_, ?_, ?_⟩
    · simp only [List.mem_cons, not_or]
      refine ⟨hne j (by simp), ?_⟩
      intro hmemf
      obtain ⟨k, hk, hor⟩ := hmem _ hmemf
      have hjk : j ≠ k := fun he => hnd.1 (he ▸ hk)
      rcases hor with he | he
      · exact hjk (hff j (by simp) k (by simp [hk]) he)
      · exact hfg j (by simp) k (by simp [hk]) he
    · intro hmemg
      obtain ⟨k, hk, hor⟩ := hmem _ hmemg
      have hjk : j ≠ k := fun he => hnd.1 (he ▸ hk)
      rcases hor with he | he
      · exact hfg k (by simp [hk]) j (by simp) he.symm
      · exact hjk (hgg j (by simp) k (by simp [hk]) he)
    · exact ih hnd.2 (fun a ha => hne a (by simp [ha]))
        (fun a ha b hb => hff a (by simp [ha]) b (by simp [hb]))
        (fun a ha b hb => hgg a (by simp [ha]) b (by simp [hb]))
        (fun a ha b hb => hfg a (by simp [ha]) b (by simp [hb]))

theorem blockChanges_updateConf_perm (v : List ℝ) (eps : ℝ) (heps : 0 ≤ eps)
    (L : ℕ) (hv : v.length = L * L) (r rp : ℕ) (hr : r < L) (hrp : rp < L)
    (hrne : r ≠ rp) (idx : ℕ → ℕ → ℕ → ℕ)
    (hinj : ∀ c j c2 j2, c < L → j < L → c2 < L → j2 < L →
      idx L c j = idx L c2 j2 → c = c2 ∧ j = j2)
    (hlt : ∀ c j, c < L → j < L → idx L c j < L * L) :
    (updateConf v (blockChanges v eps L r rp idx).1
      (blockChanges v eps L r rp idx).2).Perm v := by
  rw [blockChanges_eq]
  apply updateConf_swaps_perm
  · apply swapIdxList_nodup_of_inj
    · exact (List.nodup_range L).filter _
    · intro j hj
      have hjL : j < L := List.mem_range.mp (List.mem_of_mem_filter hj)
      exact fun he => hrne (hinj r j rp j hr hjL hrp hjL he).1
    · intro j hj k hk he
      have hjL : j < L := List.mem_range.mp (List.mem_of_mem_filter hj)
      have hkL : k < L := List.mem_range.mp (List.mem_of_mem_filter hk)
      exact (hinj r j r k hr hjL hr hkL he).2
    · intro j hj k hk he
      have hjL : j < L := List.mem_range.mp (List.mem_of_mem_filter hj)
      have hkL : k < L := List.mem_range.mp (List.mem_of_mem_filter hk)
      exact (hinj rp j rp k hrp hjL hrp hkL he).2
    · intro j hj k hk he
      have hjL : j < L := List.mem_range.mp (List.mem_of_mem_filter hj)
      have hkL : k < L := List.mem_range.mp (List.mem_of_mem_filter hk)
      exact hrne (hinj r j rp k hr hjL hrp hkL he).1
  · intro i hi
    rw [hv]
    obtain ⟨p, hp, hor⟩ := (mem_swapIdxList _ i).mp hi
    obtain ⟨j, hj, rfl⟩ := List.mem_map.mp hp
    have hjL : j < L := List.mem_range.mp (List.mem_of_mem_filter hj)
    rcases hor with rfl | rfl
    · exact hlt r j hr hjL
    · exact hlt rp j hrp hjL

theorem sweepIter_perm {LT : Type}
    (lvd : List ℝ → List ℕ → List ℝ → LT → ℂ)
    (updLT : List ℝ → List ℕ → List ℝ → LT → LT)
    (clusters : List (ℕ × ℕ)) (L : ℕ) (eps : ℝ) (heps : 0 ≤ eps)
    (hcl : ∀ p ∈ clusters, p.1 < L * L ∧ p.2 < L * L)
    (s : SweepState LT) (hv : s.v.length = L * L) (d : SweepDraws) :
    ((sweepIter lvd updLT clusters L eps s d).v).Perm s.v := by
  simp only [sweepIter]
  by_cases hbr : (0.2 : ℝ) < d.branch
  · rw [if_pos hbr]
    by_cases hmv : eps < |s.v.getD (clusters.getD d.rcl (0, 0)).1 0 -
        s.v.getD (clusters.getD d.rcl (0, 0)).2 0|
    · rw [if_pos hmv]
      by_cases hacc : d.acc < Complex.normSq (Complex.exp (lvd s.v
          [(clusters.getD d.rcl (0, 0)).1, (clusters.getD d.rcl (0, 0)).2]
          [s.v.getD (clusters.getD d.rcl (0, 0)).2 0,
           s.v.getD (clusters.getD d.rcl (0, 0)).1 0] s.lt))
      · rw [if_pos hacc]
        have hne : (clusters.getD d.rcl (0, 0)).1 ≠ (clusters.getD d.rcl (0, 0)).2 := by
          intro he
          rw [he] at hmv
          simp only [sub_self, abs_zero] at hmv
          linarith
        have hbounds : (clusters.getD d.rcl (0, 0)).1 < s.v.length ∧
            (clusters.getD d.rcl (0, 0)).2 < s.v.length := by
          by_cases hrc : d.rcl < clusters.length
          · have hmem : clusters.getD d.rcl (0, 0) ∈ clusters := by
              rw [List.getD_eq_getElem clusters (0, 0) hrc]
              exact List.getElem_mem hrc
            have hb := hcl _ hmem
            omega
          · have hdef : clusters.getD d.rcl (0, 0) = (0, 0) :=
              List.getD_eq_default _ _ (le_of_not_lt hrc)
            rw [hdef] at hne
            exact absurd rfl hne
        have hidx : [(clusters.getD d.rcl (0, 0)).1, (clusters.getD d.rcl (0, 0)).2] =
            swapIdxList [clusters.getD d.rcl (0, 0)] := by
          simp [swapIdxList]
        have hval : [s.v.getD (clusters.getD d.rcl (0, 0)).2 0,
            s.v.getD (clusters.getD d.rcl (0, 0)).1 0] =
            swapValList s.v [clusters.getD d.rcl (0, 0)] := by
          simp [swapValList]
        show (updateConf s.v _ _).Perm s.v
        rw [hidx, hval]
        apply updateConf_swaps_perm
        · rw [← hidx]
          exact List.nodup_cons.mpr ⟨fun h => hne (by simpa using h),
            List.nodup_singleton _⟩
        · intro i hi
          simp only [swapIdxList, List.map_cons, List.map_nil, List.flatten,
            List.append_nil, List.mem_cons, List.not_mem_nil, or_false] at hi
          rcases hi with rfl | rfl
          · exact hbounds.1
          · exact hbounds.2
      · rw [if_neg hacc]
    · rw [if_neg hmv]
  · rw [if_neg hbr]
    by_cases hrow : (0.5 : ℝ) < d.rowcol
    · rw [if_pos hrow]
      by_cases hch : (blockChanges s.v eps L (d.line % L) ((d.line % L + 1) % L)
          colIdx).1 ≠ []
      · rw [if_pos hch]
        have hL : 0 < L := by
          rcases Nat.eq_zero_or_pos L with h0 | h0
          · exfalso
            apply hch
            rw [blockChanges_eq]
            simp [h0, swapIdxList]
          · exact h0
        have hr : d.line % L < L := Nat.mod_lt _ hL
        have hrp : (d.line % L + 1) % L < L := Nat.mod_lt _ hL
        have hrne : d.line % L ≠ (d.line % L + 1) % L := by
          intro he
          apply hch
          rw [blockChanges_eq]
          have hfil : (List.range L).filter (fun j =>
              decide (eps < s.v.getD (colIdx L (d.line % L) j) 0 -
                s.v.getD (colIdx L ((d.line % L + 1) % L) j) 0)) = [] := by
            rw [List.filter_eq_nil_iff]
            intro j hj
            rw [← he]
            simp only [decide_eq_true_eq, sub_self]
            intro hcon
            linarith
          rw [hfil]
          simp [swapIdxList]
        split_ifs with hacc
        · exact blockChanges_updateConf_perm s.v eps heps L hv _ _ hr hrp hrne colIdx
            (fun c j c2 j2 hc hj hc2 hj2 he => lineIdx_inj L c j c2 j2 hj hj2 he)
            (fun c j hc hj => lineIdx_lt L c j hc hj)
        · exact List.Perm.refl _
      · rw [if_neg hch]
    · rw [if_neg hrow]
      by_cases hch : (blockChanges s.v eps L (d.line % L) ((d.line % L + 1) % L)
          rowIdx).1 ≠ []
      · rw [if_pos hch]
        have hL : 0 < L := by
          rcases Nat.eq_zero_or_pos L with h0 | h0
          · exfalso
            apply hch
            rw [blockChanges_eq]
            simp [h0, swapIdxList]
          · exact h0
        have hr : d.line % L < L := Nat.mod_lt _ hL
        have hrp : (d.line % L + 1) % L < L := Nat.mod_lt _ hL
        have hrne : d.line % L ≠ (d.line % L + 1) % L := by
          intro he
          apply hch
          rw [blockChanges_eq]
          have hfil : (List.range L).filter (fun j =>
              decide (eps < s.v.getD (rowIdx L (d.line % L) j) 0 -
                s.v.getD (rowIdx L ((d.line % L + 1) % L) j) 0)) = [] := by
            rw [List.filter_eq_nil_iff]
            intro j hj
            rw [← he]
            simp only [decide_eq_true_eq, sub_self]
            intro hcon
            linarith
          rw [hfil]
          simp [swapIdxList]
        split_ifs with hacc
        · refine blockChanges_updateConf_perm s.v eps heps L hv _ _ hr hrp hrne rowIdx
            (fun c j c2 j2 hc hj hc2 hj2 he => ?_) (fun c j hc hj => ?_)
          · have h2 := lineIdx_inj L j c j2 c2 hc hc2 he
            exact ⟨h2.2, h2.1⟩
          · exact lineIdx_lt L j c hj hc
        · exact List.Perm.refl _
      · rw [if_neg hch]

theorem metropolisGlobalSweep_perm {LT : Type}
    (lvd : List ℝ → List ℕ → List ℝ → LT → ℂ)
    (updLT : List ℝ → List ℕ → List ℝ → LT → LT)
    (clusters : List (ℕ × ℕ)) (L : ℕ) (eps : ℝ) (heps : 0 ≤ eps)
    (hcl : ∀ p ∈ clusters, p.1 < L * L ∧ p.2 < L * L)
    (ds : List SweepDraws) : ∀ s : SweepState LT, s.v.length = L * L →
    ((metropolisGlobalSweep lvd updLT clusters L eps s ds).v).Perm s.v := by
  induction ds with
  | nil =>
    intro s _
    exact List.Perm.refl _
  | cons d ds ih =>
    intro s hv
    simp only [metropolisGlobalSweep, List.foldl_cons]
    have h1 := sweepIter_perm lvd updLT clusters L eps heps hcl s hv d
    have hlen : (sweepIter lvd updLT clusters L eps s d).v.length = L * L := by
      rw [h1.length_eq, hv]
    exact ((ih (sweepIter lvd updLT clusters L eps s d) hlen).trans h1)

theorem exchangeKernelRow_perm (kclusters : List (ℕ × ℕ)) (nv : ℕ)
    (hkcl : ∀ p ∈ kclusters, p.1 < nv ∧ p.2 < nv)
    (w : List ℝ) (hw : w.length = nv) (rcl : ℕ) :
    (exchangeKernelRow kclusters w rcl).Perm w := by
  rw [exchangeKernelRow]
  by_cases hrc : rcl < kclusters.length
  · have hmem : kclusters.getD rcl (0, 0) ∈ kclusters := by
      rw [List.getD_eq_getElem kclusters (0, 0) hrc]
      exact List.getElem_mem hrc
    obtain ⟨h1, h2⟩ := hkcl _ hmem
    exact listSwap_perm w _ _ (by omega) (by omega)
  · rw [List.getD_eq_default _ _ (le_of_not_lt hrc)]
    cases w with
    | nil => exact List.Perm.refl _
    | cons y t =>
      have he : listSwap (y :: t) 0 0 = y :: t := by simp [listSwap]
      rw [he]

theorem exchangeKernel_forall₂ (kclusters : List (ℕ × ℕ)) (nv : ℕ)
    (hkcl : ∀ p ∈ kclusters, p.1 < nv ∧ p.2 < nv) :
    ∀ (vs : List (List ℝ)) (draws : List ℕ), (∀ w ∈ vs, w.length = nv) →
    draws.length = vs.length →
    List.Forall₂ (fun w w2 => (w : Multiset ℝ) = (w2 : Multiset ℝ))
      (exchangeKernel kclusters vs draws).1 vs := by
  intro vs
  induction vs with
  | nil =>
    intro draws _ _
    simp [exchangeKernel]
  | cons w vs ih =>
    intro draws hlen hd
    cases draws with
    | nil => simp at hd
    | cons r draws =>
      simp only [exchangeKernel, List.zipWith_cons_cons]
      refine List.Forall₂.cons ?_ ?_
      · exact Multiset.coe_eq_coe.mpr
          (exchangeKernelRow_perm kclusters nv hkcl w (hlen w (by simp)) r)
      · have h2 := ih draws (fun u hu => hlen u (by simp [hu])) (by simpa using hd)
        simpa [exchangeKernel] using h2

/-- Claim C10.  Every move of the exchange-based samplers only swaps the
values held at pairs of sites, so the multiset of local values of the
configuration is invariant: under every MetropolisGlobal Sweep (pairwise
cluster moves and row/column block swaps alike), for every configuration,
cluster list with in-range sites, and random draws; and under every
ExchangeKernel application, row by row. -/
theorem exchange_moves_conserve_multiset {LT : Type}
    (lvd : List ℝ → List ℕ → List ℝ → LT → ℂ)
    (updLT : List ℝ → List ℕ → List ℝ → LT → LT)
    (clusters : List (ℕ × ℕ)) (L : ℕ) (eps : ℝ) (heps : 0 ≤ eps)
    (hcl : ∀ p ∈ clusters, p.1 < L * L ∧ p.2 < L * L)
    (s : SweepState LT) (hv : s.v.length = L * L) (ds : List SweepDraws)
    (kclusters : List (ℕ × ℕ)) (nv : ℕ)
    (hkcl : ∀ p ∈ kclusters, p.1 < nv ∧ p.2 < nv)
    (vs : List (List ℝ)) (hvs : ∀ w ∈ vs, w.length = nv)
    (draws : List ℕ) (hdl : draws.length = vs.length) :
    ((metropolisGlobalSweep lvd updLT clusters L eps s ds).v : Multiset ℝ) =
      (s.v : Multiset ℝ) ∧
    List.Forall₂ (fun w w2 => (w : Multiset ℝ) = (w2 : Multiset ℝ))
      (exchangeKernel kclusters vs draws).1 vs :=
  ⟨Multiset.coe_eq_coe.mpr
      (metropolisGlobalSweep_perm lvd updLT clusters L eps heps hcl ds s hv),
   exchangeKernel_forall₂ kclusters nv hkcl vs draws hvs hdl⟩

/-- Witness for claim C10: one sweep iteration on the 2×2 configuration
[1, 2, 3, 4] with cluster (0, 1), and one kernel application to the batch
[[5, 6]]. -/
theorem exchange_moves_conserve_multiset_witness :
    ((metropolisGlobalSweep (fun _ _ _ _ => (0 : ℂ)) (fun _ _ _ lt => lt)
        [(0, 1)] 2 0 (SweepState.mk [1, 2, 3, 4] () (0, 0) (0, 0))
        [SweepDraws.mk 1 0 0 0 (1/2)]).v : Multiset ℝ) =
      (([1, 2, 3, 4] : List ℝ) : Multiset ℝ) ∧
    List.Forall₂ (fun w w2 => (w : Multiset ℝ) = (w2 : Multiset ℝ))
      (exchangeKernel [(0, 1)] [[(5 : ℝ), 6]] [0]).1 [[(5 : ℝ), 6]] :=
  exchange_moves_conserve_multiset (fun _ _ _ _ => (0 : ℂ)) (fun _ _ _ lt => lt)
    [(0, 1)] 2 0 (by norm_num) (by intro p hp; simp at hp; rw [hp]; norm_num)
    (SweepState.mk [1, 2, 3, 4] () (0, 0) (0, 0)) (by norm_num)
    [SweepDraws.mk 1 0 0 0 (1/2)] [(0, 1)] 2
    (by intro p hp; simp at hp; rw [hp]; norm_num)
    [[(5 : ℝ), 6]] (by intro w hw; simp at hw; rw [hw]; norm_num) [0] (by norm_num)

end NetKet
